import Mathlib

/-!
Verification of the bucket garbage-collection engine ("mop") of fiss.py.

The definitions below are a shallow embedding of the functions
`human_readable_size`, `list_bucket_files`, `choose_keepers`,
`get_files_to_keep`, `can_delete` and the candidate-selection /
execution tail of `mop` from firecloud/fiss.py.  Machine datetimes are
modelled as integers (only their order matters), Python lists as Lean
lists, Python sets by list membership.  Python's `fnmatch.fnmatchcase`
(standard library, an external collaborator of this code) is modelled
by an executable glob matcher with the documented semantics
(`*`, `?`, `[seq]`, `[!seq]`, unterminated `[` is a literal).
-/

namespace Fiss

/-- One bucket object's metadata, exactly the dictionary built per blob in
`list_bucket_files` (fiss.py lines 1294-1304).  `time_created` and
`time_updated` are datetimes in the source; only their total order is used,
so they are embedded as integers. -/
structure FileMetadata where
  file_name : String
  file_path : String
  submission_id : String
  size : Nat
  md5 : String
  time_created : Int
  time_updated : Int
  unique_key : String
  is_in_data_table : Bool
deriving DecidableEq, Repr

/-- Raw listing data for one blob, as consumed by `list_bucket_files`. -/
structure Blob where
  name : String
  md5 : String
  size : Nat
  time_created : Int
  time_updated : Int
deriving DecidableEq, Repr

/- ---------------------------------------------------------------- -/
/- String helpers used by the source (Python str operations).        -/
/- ---------------------------------------------------------------- -/

/-- Characters of a string after its last '/': the Python idiom
`s.rsplit('/', 1)[-1]` (and equally `s.split('/')[-1]`). -/
def afterLastSlash (cs : List Char) : List Char :=
  cs.foldl (fun acc c => if c = '/' then [] else acc ++ [c]) []

/-- Python `s.endswith(suf)`. -/
def strEndsWith (s suf : String) : Bool :=
  suf.data.reverse.isPrefixOf s.data.reverse

/-- Python `s.split('/', maxsplit)` on the character list of `s`:
at most `maxsplit` splits, the remainder is kept whole. -/
def splitSlashMax : Nat → List Char → List (List Char)
  | _, [] => [[]]
  | 0, cs => [cs]
  | Nat.succ n, c :: cs =>
    if c = '/' then [] :: splitSlashMax n cs
    else
      match splitSlashMax (Nat.succ n) cs with
      | [] => [[c]]
      | h :: t => (c :: h) :: t

/-- The expression `full_file_path.split('/', 4)[3]` of fiss.py line 1286,
with the Python `IndexError` on a missing index made explicit as `none`. -/
def deriveSubmissionId (full_file_path : String) : Option String :=
  ((splitSlashMax 4 full_file_path.data).get? 3).map String.mk

/- ---------------------------------------------------------------- -/
/- Model of Python fnmatch.fnmatchcase (standard library).           -/
/- ---------------------------------------------------------------- -/

/-- One token of a compiled glob pattern. -/
inductive GlobTok where
  | star : GlobTok
  | qmark : GlobTok
  | lit : Char → GlobTok
  | cls : Bool → List Char → GlobTok
deriving DecidableEq, Repr

/-- Scan for the closing ']' of a character class; returns the class body
and the rest of the pattern, or `none` when the class is unterminated. -/
def findClassEnd : List Char → Option (List Char × List Char)
  | [] => none
  | c :: rest =>
    if c = ']' then some ([], rest)
    else
      match findClassEnd rest with
      | some (body, rest2) => some (c :: body, rest2)
      | none => none

/-- Does a character class body (with '-' ranges, as in fnmatch) match `c`? -/
def matchClassBody : List Char → Char → Bool
  | a :: '-' :: b :: rest, c =>
    (a ≤ c ∧ c ≤ b : Bool) || matchClassBody rest c
  | a :: rest, c => (a = c : Bool) || matchClassBody rest c
  | [], _ => false

/-- Compile a glob pattern to tokens, fnmatch-style: after '[' an optional
'!' negates, a ']' directly after that is a literal member, and a '['
with no closing ']' is a literal character.  The fuel argument only
serves structural recursion; every step consumes at least one pattern
character, so `length + 1` fuel never runs out. -/
def parseGlobF : Nat → List Char → List GlobTok
  | 0, _ => []
  | _ + 1, [] => []
  | fuel + 1, c :: ps =>
    if c = '*' then GlobTok.star :: parseGlobF fuel ps
    else if c = '?' then GlobTok.qmark :: parseGlobF fuel ps
    else if c = '[' then
      match ps with
      | '!' :: ']' :: ps2 =>
        match findClassEnd ps2 with
        | some (body, rest) => GlobTok.cls true (']' :: body) :: parseGlobF fuel rest
        | none => GlobTok.lit '[' :: parseGlobF fuel ps
      | '!' :: ps2 =>
        match findClassEnd ps2 with
        | some (body, rest) => GlobTok.cls true body :: parseGlobF fuel rest
        | none => GlobTok.lit '[' :: parseGlobF fuel ps
      | ']' :: ps2 =>
        match findClassEnd ps2 with
        | some (body, rest) => GlobTok.cls false (']' :: body) :: parseGlobF fuel rest
        | none => GlobTok.lit '[' :: parseGlobF fuel ps
      | _ =>
        match findClassEnd ps with
        | some (body, rest) => GlobTok.cls false body :: parseGlobF fuel rest
        | none => GlobTok.lit '[' :: parseGlobF fuel ps
    else GlobTok.lit c :: parseGlobF fuel ps

/-- Match compiled glob tokens against a string.  Again fuel-structural;
each step consumes a token or a character, so `toks + chars + 1` fuel
never runs out. -/
def tokMatchF : Nat → List GlobTok → List Char → Bool
  | 0, _, _ => false
  | _ + 1, [], [] => true
  | _ + 1, [], _ :: _ => false
  | fuel + 1, GlobTok.star :: ps, s =>
    tokMatchF fuel ps s ||
      (match s with
       | [] => false
       | _ :: cs => tokMatchF fuel (GlobTok.star :: ps) cs)
  | fuel + 1, GlobTok.qmark :: ps, _ :: cs => tokMatchF fuel ps cs
  | _ + 1, GlobTok.qmark :: _, [] => false
  | fuel + 1, GlobTok.lit a :: ps, c :: cs => (a = c : Bool) && tokMatchF fuel ps cs
  | _ + 1, GlobTok.lit _ :: _, [] => false
  | fuel + 1, GlobTok.cls neg body :: ps, c :: cs =>
    (neg != matchClassBody body c) && tokMatchF fuel ps cs
  | _ + 1, GlobTok.cls _ _ :: _, [] => false

/-- Model of Python `fnmatch.fnmatchcase(name, pat)`: case-sensitive glob
match of the whole `name` against `pat`. -/
def fnmatchcase (name pat : String) : Bool :=
  let toks := parseGlobF (pat.data.length + 1) pat.data
  tokMatchF (2 * toks.length + name.data.length + 1) toks name.data

/- ---------------------------------------------------------------- -/
/- human_readable_size (fiss.py lines 1240-1249).                    -/
/- ---------------------------------------------------------------- -/

/-- The unit list of fiss.py line 1240. -/
def hrs_units : List String := ["bytes", "KiB", "MiB", "GiB", "TiB", "PiB"]

/-- Number of iterations of the `while size_in_bytes >= 1024.0 and
reduce_count < 5` loop of `human_readable_size`. -/
def hrsSteps (size : Nat) : Nat :=
  if size < 1024 then 0
  else if size < 1024 ^ 2 then 1
  else if size < 1024 ^ 3 then 2
  else if size < 1024 ^ 4 then 3
  else if size < 1024 ^ 5 then 4
  else 5

/-- Round `a / b` to the nearest integer, ties to even (IEEE/Python
rounding used by `"{:.2f}".format`); requires `b > 0`. -/
def roundHalfEvenDiv (a b : Nat) : Nat :=
  let q := a / b
  let r := a % b
  if 2 * r < b then q
  else if b < 2 * r then q + 1
  else if q % 2 = 0 then q else q + 1

/-- Two-digit zero-padded decimal. -/
def pad2 (n : Nat) : String :=
  if n < 10 then "0" ++ toString n else toString n

/-- Fixed-point rendering of `n / 100` with two decimals. -/
def formatFixed2 (n : Nat) : String :=
  toString (n / 100) ++ "." ++ pad2 (n % 100)

/-- Model of `human_readable_size` (fiss.py lines 1241-1249).  The source
divides a float by 1024.0 up to five times and formats with
`"{:.2f}"`; division by a power of two is exact in binary floating
point, so for any realistic size (below 2^53 bytes) the printed value
is exactly the correctly rounded rational `size / 1024^k`, which is
what the integer arithmetic below computes. -/
def human_readable_size (size : Nat) : String :=
  let k := hrsSteps size
  let size_str :=
    if 0 < k then formatFixed2 (roundHalfEvenDiv (size * 100) (1024 ^ k))
    else toString size
  size_str ++ " " ++ hrs_units.getD k ""

/- ---------------------------------------------------------------- -/
/- list_bucket_files (fiss.py lines 1252-1310).                      -/
/- ---------------------------------------------------------------- -/

/-- The per-blob metadata construction of `list_bucket_files`
(fiss.py lines 1282-1304).  The `.getD ""` on the submission id is
justified below: the index-3 access never fails on a path of the form
`gs://bucket/filename`. -/
def blobMetadata (bucket_name : String) (referenced_files : List String)
    (b : Blob) : FileMetadata :=
  let full_file_path := "gs://" ++ bucket_name ++ "/" ++ b.name
  let file_name := String.mk (afterLastSlash b.name.data)
  { file_name := file_name
    file_path := full_file_path
    submission_id := (deriveSubmissionId full_file_path).getD ""
    size := b.size
    md5 := b.md5
    time_created := b.time_created
    time_updated := b.time_updated
    unique_key := file_name ++ "." ++ b.md5 ++ "." ++ toString b.size
    is_in_data_table := decide (full_file_path ∈ referenced_files) }

/-- `list_bucket_files` (fiss.py lines 1252-1310): every blob whose name
does not end in '/' contributes one inventory entry.  The source keys
the result by `full_file_path`; blob names are unique within one
listing, so the dictionary's values in insertion order are exactly this
list. -/
def list_bucket_files (bucket_name : String) (referenced_files : List String)
    (blobs : List Blob) : List FileMetadata :=
  (blobs.filter (fun b => !(strEndsWith b.name "/"))).map
    (blobMetadata bucket_name referenced_files)

/- ---------------------------------------------------------------- -/
/- choose_keepers and get_files_to_keep (fiss.py lines 1313-1350).   -/
/- ---------------------------------------------------------------- -/

/-- Python `max(l, key=lambda x: x['time_updated'])`: the first element
attaining the maximal key, `none` on an empty list. -/
def firstMax : List FileMetadata → Option FileMetadata
  | [] => none
  | f :: fs =>
    some (fs.foldl (fun best x => if best.time_updated < x.time_updated then x else best) f)

/-- `choose_keepers` (fiss.py lines 1313-1326): keep all if all referenced,
else exactly the referenced ones if any, else the single most recently
updated entry. -/
def choose_keepers (duplicated_files : List FileMetadata) : List FileMetadata :=
  if duplicated_files.all (fun f => f.is_in_data_table) then duplicated_files
  else if duplicated_files.any (fun f => f.is_in_data_table) then
    duplicated_files.filter (fun f => f.is_in_data_table)
  else
    match firstMax duplicated_files with
    | some m => [m]
    | none => []

/-- Lookup in the `files_to_keep` dictionary (association list in
insertion order). -/
def lookupKeep (k : String) : List (String × List FileMetadata) → Option (List FileMetadata)
  | [] => none
  | (k2, v) :: rest => if k2 = k then some v else lookupKeep k rest

/-- In-place value update of the `files_to_keep` dictionary (a Python dict
keeps the original insertion position on re-assignment). -/
def updateKeep (k : String) (v : List FileMetadata) :
    List (String × List FileMetadata) → List (String × List FileMetadata)
  | [] => []
  | (k2, v2) :: rest =>
    if k2 = k then (k2, v) :: rest else (k2, v2) :: updateKeep k v rest

/-- One iteration of the loop of `get_files_to_keep`
(fiss.py lines 1333-1344). -/
def keepStep (acc : List (String × List FileMetadata)) (f : FileMetadata) :
    List (String × List FileMetadata) :=
  match lookupKeep f.unique_key acc with
  | none => acc ++ [(f.unique_key, [f])]
  | some kept => updateKeep f.unique_key (choose_keepers (kept ++ [f])) acc

/-- `get_files_to_keep` (fiss.py lines 1329-1350): fold the inventory into
the per-key keeper dictionary, then collect the kept file paths.  The
source returns a Python set; membership in this list is its
membership. -/
def get_files_to_keep (bucket_dict : List FileMetadata) : List String :=
  (bucket_dict.foldl keepStep []).flatMap (fun kv => kv.2.map (fun f => f.file_path))

/- ---------------------------------------------------------------- -/
/- can_delete (fiss.py lines 1353-1382).                             -/
/- ---------------------------------------------------------------- -/

/-- The filename a path is judged by: `f.rsplit('/', 1)[-1]`. -/
def mop_filename (f : String) : String :=
  String.mk (afterLastSlash f.data)

/-- The protected filenames of `can_delete`: log and return-code suffixes
plus the fixed well-known job-runner output names. -/
def protectedName (filename : String) : Bool :=
  strEndsWith filename ".log" || strEndsWith filename "-rc.txt" ||
  (filename = "rc" : Bool) ||
  (filename = "exec.sh" : Bool) || (filename = "script" : Bool) ||
  (filename = "stderr" : Bool) || (filename = "stdout" : Bool) ||
  (filename = "output" : Bool)

/-- `can_delete` (fiss.py lines 1353-1382): protected names are never
deletable; otherwise a non-empty include list decides alone, else a
non-empty exclude list vetoes matches, else deletable. -/
def can_delete (f : String) (inc exc : List String) : Bool :=
  if strEndsWith (mop_filename f) ".log" then false
  else if strEndsWith (mop_filename f) "-rc.txt" then false
  else if mop_filename f = "rc" then false
  else if mop_filename f = "exec.sh" ∨ mop_filename f = "script" then false
  else if mop_filename f = "stderr" ∨ mop_filename f = "stdout" ∨
      mop_filename f = "output" then false
  else if !inc.isEmpty then inc.any (fun g => fnmatchcase (mop_filename f) g)
  else if !exc.isEmpty then !(exc.any (fun g => fnmatchcase (mop_filename f) g))
  else true

/- ---------------------------------------------------------------- -/
/- The candidate selection and execution tail of mop                 -/
/- (fiss.py lines 1455-1543).                                        -/
/- ---------------------------------------------------------------- -/

/-- The flags of `mop` relevant to the modelled tail. -/
structure MopArgs where
  keep_one : Bool
  dry_run : Bool
  yes : Bool
  verbose : Bool
  make_manifest : Bool
  include_globs : List String
  exclude_globs : List String
deriving DecidableEq, Repr

/-- `eligible_bucket_files` (fiss.py line 1461): inventory paths whose
derived submission id belongs to the workspace's submission-id set. -/
def eligible_bucket_files (bucket_dict : List FileMetadata)
    (submission_ids : List String) : List String :=
  (bucket_dict.filter (fun f => decide (f.submission_id ∈ submission_ids))).map
    (fun f => f.file_path)

/-- `potential_deletable_files` (fiss.py lines 1474-1479): eligible minus
keepers in keep-one mode, eligible minus the referenced set otherwise. -/
def potential_deletable_files (keep_one : Bool) (bucket_dict : List FileMetadata)
    (submission_ids referenced_files : List String) : List String :=
  if keep_one then
    (eligible_bucket_files bucket_dict submission_ids).filter
      (fun p => decide (p ∉ get_files_to_keep bucket_dict))
  else
    (eligible_bucket_files bucket_dict submission_ids).filter
      (fun p => decide (p ∉ referenced_files))

/-- `deletable_files` (fiss.py line 1482): the safety filter applied to the
raw candidates. -/
def deletable_files (args : MopArgs) (bucket_dict : List FileMetadata)
    (submission_ids referenced_files : List String) : List String :=
  (potential_deletable_files args.keep_one bucket_dict submission_ids
      referenced_files).filter
    (fun f => can_delete f args.include_globs args.exclude_globs)

/-- The dictionary lookup `bucket_dict[f]['size']`. -/
def sizeOfPath (bucket_dict : List FileMetadata) (p : String) : Nat :=
  ((bucket_dict.find? (fun m => m.file_path = p)).map (fun m => m.size)).getD 0

/-- One row of the manifest CSV, in the column order of
`fields_for_manifest` (fiss.py lines 1516-1523). -/
structure ManifestRow where
  file_path : String
  file_name : String
  to_delete : Bool
  is_in_data_table : Bool
  size : Nat
  size_human_readable : String
  md5 : String
  time_updated : Int
deriving DecidableEq, Repr

/-- The per-entry manifest annotation (fiss.py lines 1504-1509). -/
def annotateRow (deletable : List String) (m : FileMetadata) : ManifestRow :=
  { file_path := m.file_path
    file_name := m.file_name
    to_delete := decide (m.file_path ∈ deletable)
    is_in_data_table := m.is_in_data_table
    size := m.size
    size_human_readable := human_readable_size m.size
    md5 := m.md5
    time_updated := m.time_updated }

/-- Row order of the manifest: `sort_values(by=['to_delete','file_path'],
ascending=[False, False])` — rows with `to_delete` true first, and
descending file path within equal `to_delete`. -/
def manifestLe (a b : ManifestRow) : Bool :=
  (a.to_delete && !b.to_delete) ||
    ((a.to_delete = b.to_delete : Bool) && decide (b.file_path ≤ a.file_path))

/-- The manifest rows written by `mop` (fiss.py lines 1502-1525): every
inventory entry annotated, sorted by (to_delete desc, file_path desc). -/
def manifest_rows (bucket_dict : List FileMetadata) (deletable : List String) :
    List ManifestRow :=
  (bucket_dict.map (annotateRow deletable)).mergeSort manifestLe

/-- Observable outcome of one run of the modelled tail of `mop`. -/
structure MopResult where
  deleted : List String
  exit_code : Nat
  printed_summary : Option (Nat × String)
  manifest : Option (List ManifestRow)
deriving DecidableEq, Repr

/-- The tail of `mop` (fiss.py lines 1482-1543) after the bucket listing
succeeded: compute the deletable files, stop silently when there are
none, otherwise optionally print the summary (count and human-readable
total size), optionally write the manifest, and delete only when
neither dry-run nor a declined confirmation stops the run.  `confirm`
is the user's answer to the prompt (only consulted when `yes` is
unset). -/
def mop_run (args : MopArgs) (bucket_dict : List FileMetadata)
    (submission_ids referenced_files : List String) (confirm : Bool) : MopResult :=
  let deletable := deletable_files args bucket_dict submission_ids referenced_files
  if deletable.length = 0 then
    { deleted := [], exit_code := 0, printed_summary := none, manifest := none }
  else
    let deletable_size :=
      human_readable_size ((deletable.map (sizeOfPath bucket_dict)).sum)
    let printed :=
      if args.verbose || args.dry_run then some (deletable.length, deletable_size)
      else none
    let manifest :=
      if args.make_manifest then some (manifest_rows bucket_dict deletable)
      else none
    if args.dry_run || (!args.yes && !confirm) then
      { deleted := [], exit_code := 0, printed_summary := printed, manifest := manifest }
    else
      { deleted := deletable, exit_code := 0, printed_summary := printed,
        manifest := manifest }

/- ---------------------------------------------------------------- -/
/- Spec-side definitions for the refinement claims.                  -/
/- ---------------------------------------------------------------- -/

/-- Unique-key list of an inventory, in first-occurrence order. -/
def keysFM (l : List FileMetadata) : List String :=
  l.foldl (fun ks f => if ks.contains f.unique_key then ks else ks ++ [f.unique_key]) []

/-- The complete duplicate group of an inventory for one unique key. -/
def groupOf (l : List FileMetadata) (k : String) : List FileMetadata :=
  l.filter (fun f => f.unique_key = k)

/-- One-shot per-group keeper computation: `choose_keepers` applied once to
each complete unique-key group, in first-occurrence order.  This is the
claim-side description that `get_files_to_keep` is compared against. -/
def oneShotKeepers (l : List FileMetadata) : List String :=
  (keysFM l).flatMap (fun k => (choose_keepers (groupOf l k)).map (fun f => f.file_path))

/- ---------------------------------------------------------------- -/
/- Concrete sample data exercising the theorems below.               -/
/- ---------------------------------------------------------------- -/

/-- Unreferenced duplicate, updated at time 5. -/
def sampleUnrefA : FileMetadata :=
  ⟨"x.bam", "gs://bkt/sub1/a/x.bam", "sub1", 100, "h1", 0, 5, "x.bam.h1.100", false⟩

/-- Unreferenced duplicate of `sampleUnrefA` with the same `time_updated`. -/
def sampleUnrefB : FileMetadata :=
  ⟨"x.bam", "gs://bkt/sub1/b/x.bam", "sub1", 100, "h1", 0, 5, "x.bam.h1.100", false⟩

/-- Unreferenced duplicate, older (time 3). -/
def sampleUnrefOld : FileMetadata :=
  ⟨"x.bam", "gs://bkt/sub1/old/x.bam", "sub1", 100, "h1", 0, 3, "x.bam.h1.100", false⟩

/-- Referenced duplicate (time 7). -/
def sampleRef : FileMetadata :=
  ⟨"x.bam", "gs://bkt/sub1/r/x.bam", "sub1", 100, "h1", 0, 7, "x.bam.h1.100", true⟩

/-- A three-blob bucket listing: a referenced file, an unreferenced
duplicate of it, and a file outside any known submission directory. -/
def invSample : List FileMetadata :=
  list_bucket_files "bkt" ["gs://bkt/sub1/x.bam"]
    [⟨"sub1/x.bam", "h1", 100, 0, 10⟩,
     ⟨"sub1/old/x.bam", "h1", 100, 0, 5⟩,
     ⟨"unknown123/foo.txt", "h2", 7, 0, 1⟩]

/-- Plain-mode, auto-confirmed flags. -/
def argsSample : MopArgs :=
  { keep_one := false, dry_run := false, yes := true, verbose := false,
    make_manifest := false, include_globs := [], exclude_globs := [] }

/-- Dry-run flags. -/
def argsDry : MopArgs :=
  { keep_one := false, dry_run := true, yes := false, verbose := false,
    make_manifest := false, include_globs := [], exclude_globs := [] }

end Fiss

namespace Fiss

/- ---------------------------------------------------------------- -/
/- Lemmas about firstMax (Python max with key).                      -/
/- ---------------------------------------------------------------- -/

/-- The running-maximum step used by `firstMax`. -/
theorem foldl_best_mem (fs : List FileMetadata) :
    ∀ b : FileMetadata,
      fs.foldl (fun best x => if best.time_updated < x.time_updated then x else best) b ∈ b :: fs := by
  induction fs with
  | nil => intro b; simp
  | cons x xs ih =>
    intro b
    simp only [List.foldl_cons]
    have h := ih (if b.time_updated < x.time_updated then x else b)
    by_cases hc : b.time_updated < x.time_updated
    · rw [if_pos hc] at h ⊢
      exact List.mem_cons.mpr (Or.inr h)
    · rw [if_neg hc] at h ⊢
      rcases List.mem_cons.mp h with h1 | h1
      · rw [h1]; exact List.mem_cons_self _ _
      · exact List.mem_cons.mpr (Or.inr (List.mem_cons.mpr (Or.inr h1)))

/-- The running maximum dominates the seed and every list element. -/
theorem foldl_best_le (fs : List FileMetadata) :
    ∀ b : FileMetadata,
      b.time_updated ≤
          (fs.foldl (fun best x => if best.time_updated < x.time_updated then x else best) b).time_updated ∧
        ∀ x ∈ fs, x.time_updated ≤
          (fs.foldl (fun best x => if best.time_updated < x.time_updated then x else best) b).time_updated := by
  induction fs with
  | nil => intro b; exact ⟨le_refl _, by simp⟩
  | cons x xs ih =>
    intro b
    simp only [List.foldl_cons]
    have h := ih (if b.time_updated < x.time_updated then x else b)
    have hb : b.time_updated ≤ (if b.time_updated < x.time_updated then x else b).time_updated := by
      by_cases hc : b.time_updated < x.time_updated
      · rw [if_pos hc]; exact le_of_lt hc
      · rw [if_neg hc]
    have hx : x.time_updated ≤ (if b.time_updated < x.time_updated then x else b).time_updated := by
      by_cases hc : b.time_updated < x.time_updated
      · rw [if_pos hc]
      · rw [if_neg hc]; exact le_of_not_lt hc
    refine ⟨le_trans hb h.1, ?_⟩
    intro y hy
    rcases List.mem_cons.mp hy with h1 | h1
    · rw [h1]; exact le_trans hx h.1
    · exact h.2 y h1

/-- The element returned by `firstMax` belongs to the list. -/
theorem firstMax_mem {l : List FileMetadata} {m : FileMetadata}
    (h : firstMax l = some m) : m ∈ l := by
  cases l with
  | nil => simp [firstMax] at h
  | cons f fs =>
    simp only [firstMax, Option.some.injEq] at h
    rw [← h]
    exact foldl_best_mem fs f

/-- The element returned by `firstMax` has maximal `time_updated`. -/
theorem firstMax_le {l : List FileMetadata} {m : FileMetadata}
    (h : firstMax l = some m) : ∀ x ∈ l, x.time_updated ≤ m.time_updated := by
  cases l with
  | nil => simp [firstMax] at h
  | cons f fs =>
    simp only [firstMax, Option.some.injEq] at h
    intro x hx
    rcases List.mem_cons.mp hx with h1 | h1
    · rw [h1, ← h]; exact (foldl_best_le fs f).1
    · rw [← h]; exact (foldl_best_le fs f).2 x h1

/-- `firstMax` succeeds on a non-empty list. -/
theorem firstMax_of_ne {l : List FileMetadata} (h : l ≠ []) :
    ∃ m, firstMax l = some m := by
  cases l with
  | nil => exact absurd rfl h
  | cons f fs => exact ⟨_, rfl⟩

/-- Appending one element to the scanned list updates the running first
maximum exactly as one more loop iteration would. -/
theorem firstMax_append_singleton (l : List FileMetadata) (f : FileMetadata) :
    firstMax (l ++ [f]) =
      some (match firstMax l with
            | none => f
            | some m => if m.time_updated < f.time_updated then f else m) := by
  cases l with
  | nil => simp [firstMax]
  | cons x xs =>
    show firstMax (x :: (xs ++ [f])) = _
    simp only [firstMax, List.foldl_append, List.foldl_cons, List.foldl_nil]

/- ---------------------------------------------------------------- -/
/- Lemmas about choose_keepers.                                      -/
/- ---------------------------------------------------------------- -/

/-- First branch of `choose_keepers`. -/
theorem choose_keepers_all {G : List FileMetadata}
    (h : G.all (fun f => f.is_in_data_table) = true) : choose_keepers G = G := by
  simp [choose_keepers, h]

/-- Second branch of `choose_keepers`. -/
theorem choose_keepers_mixed {G : List FileMetadata}
    (hall : G.all (fun f => f.is_in_data_table) = false)
    (hany : G.any (fun f => f.is_in_data_table) = true) :
    choose_keepers G = G.filter (fun f => f.is_in_data_table) := by
  simp [choose_keepers, hall, hany]

/-- Third branch of `choose_keepers`. -/
theorem choose_keepers_none {G : List FileMetadata} {m : FileMetadata}
    (hany : G.any (fun f => f.is_in_data_table) = false)
    (hm : firstMax G = some m) : choose_keepers G = [m] := by
  have hall : G.all (fun f => f.is_in_data_table) = false := by
    rcases firstMax_mem hm with hmem
    rcases Bool.eq_false_iff.mp hany with _
    cases hh : G.all (fun f => f.is_in_data_table) with
    | false => rfl
    | true =>
      have := List.all_eq_true.mp hh m hmem
      have : G.any (fun f => f.is_in_data_table) = true :=
        List.any_eq_true.mpr ⟨m, hmem, this⟩
      rw [this] at hany; exact absurd hany (by simp)
  simp [choose_keepers, hall, hany, hm]

/-- A one-element group is kept whole. -/
theorem choose_keepers_singleton (f : FileMetadata) : choose_keepers [f] = [f] := by
  cases h : f.is_in_data_table <;> simp [choose_keepers, firstMax, h]

/-- The keepers are chosen among the group. -/
theorem choose_keepers_subset {G : List FileMetadata} {x : FileMetadata}
    (h : x ∈ choose_keepers G) : x ∈ G := by
  by_cases hall : G.all (fun f => f.is_in_data_table) = true
  · rwa [choose_keepers_all hall] at h
  · by_cases hany : G.any (fun f => f.is_in_data_table) = true
    · rw [choose_keepers_mixed (Bool.eq_false_iff.mpr hall) hany] at h
      exact (List.mem_filter.mp h).1
    · rcases G with _ | ⟨g, gs⟩
      · simp [choose_keepers] at h
      · rcases firstMax_of_ne (l := g :: gs) (by simp) with ⟨m, hm⟩
        rw [choose_keepers_none (Bool.eq_false_iff.mpr hany) hm] at h
        rcases List.mem_singleton.mp h with h1
        rw [h1]; exact firstMax_mem hm

/-- A referenced member of the group is always kept. -/
theorem choose_keepers_keeps_referenced {G : List FileMetadata} {f : FileMetadata}
    (hf : f ∈ G) (href : f.is_in_data_table = true) : f ∈ choose_keepers G := by
  by_cases hall : G.all (fun g => g.is_in_data_table) = true
  · rwa [choose_keepers_all hall]
  · have hany : G.any (fun g => g.is_in_data_table) = true :=
      List.any_eq_true.mpr ⟨f, hf, href⟩
    rw [choose_keepers_mixed (Bool.eq_false_iff.mpr hall) hany]
    exact List.mem_filter.mpr ⟨hf, href⟩

/-- C1.  `choose_keepers` on a non-empty duplicate group: keeps the whole
group when every member is referenced; keeps exactly the referenced
members when some but not all are; keeps a single member attaining the
maximal `time_updated` when none is referenced. -/
theorem choose_keepers_policy (G : List FileMetadata) (hne : G ≠ []) :
    (G.all (fun f => f.is_in_data_table) = true → choose_keepers G = G) ∧
    (G.any (fun f => f.is_in_data_table) = true →
      G.all (fun f => f.is_in_data_table) = false →
      choose_keepers G = G.filter (fun f => f.is_in_data_table)) ∧
    (G.any (fun f => f.is_in_data_table) = false →
      ∃ m, choose_keepers G = [m] ∧ m ∈ G ∧
        ∀ f ∈ G, f.time_updated ≤ m.time_updated) := by
  refine ⟨fun h => choose_keepers_all h, fun hany hall => choose_keepers_mixed hall hany, ?_⟩
  intro hany
  rcases firstMax_of_ne hne with ⟨m, hm⟩
  exact ⟨m, choose_keepers_none hany hm, firstMax_mem hm, firstMax_le hm⟩

/-- Witness for C1: the policy evaluated on concrete groups.  An
all-unreferenced pair keeps only the most recently updated member. -/
theorem choose_keepers_policy_witness :
    ∃ m, choose_keepers [sampleUnrefA, sampleUnrefOld] = [m] ∧
      m ∈ [sampleUnrefA, sampleUnrefOld] ∧
      ∀ f ∈ [sampleUnrefA, sampleUnrefOld], f.time_updated ≤ m.time_updated :=
  (choose_keepers_policy [sampleUnrefA, sampleUnrefOld] (by decide)).2.2 (by decide)

/-- In a group with no referenced member, every member is unreferenced. -/
theorem unref_of_any_false {G : List FileMetadata}
    (h : G.any (fun g => g.is_in_data_table) = false) :
    ∀ x ∈ G, x.is_in_data_table = false := by
  intro x hx
  cases hh : x.is_in_data_table with
  | false => rfl
  | true => exact Bool.noConfusion ((List.any_eq_true.mpr ⟨x, hx, hh⟩).symm.trans h)

/-- A non-empty group with no referenced member fails the all-referenced
test. -/
theorem all_false_of_any_false {G : List FileMetadata}
    (h : G.any (fun g => g.is_in_data_table) = false) (hne : G ≠ []) :
    G.all (fun g => g.is_in_data_table) = false := by
  rcases G with _ | ⟨g, gs⟩
  · exact absurd rfl hne
  · cases hh : (g :: gs).all (fun x => x.is_in_data_table) with
    | false => rfl
    | true =>
      have hg := List.all_eq_true.mp hh g (List.mem_cons_self _ _)
      have h2 : (g :: gs).any (fun x => x.is_in_data_table) = true :=
        List.any_eq_true.mpr ⟨g, List.mem_cons_self _ _, hg⟩
      exact Bool.noConfusion (h2.symm.trans h)

/-- Incremental stability of `choose_keepers`: resolving a group that has
already been resolved, extended by one new member, gives the same
keepers as resolving the extended group in one shot.  This is the
invariant that makes the one-at-a-time loop of `get_files_to_keep`
agree with per-group resolution. -/
theorem choose_keepers_snoc (G : List FileMetadata) (f : FileMetadata) :
    choose_keepers (choose_keepers G ++ [f]) = choose_keepers (G ++ [f]) := by
  by_cases hGnil : G = []
  · subst hGnil
    have h0 : choose_keepers ([] : List FileMetadata) = [] := rfl
    rw [h0]
  · have hne : G ≠ [] := hGnil
    by_cases hall : G.all (fun x => x.is_in_data_table) = true
    · rw [choose_keepers_all hall]
    · have hall2 := Bool.eq_false_iff.mpr hall
      by_cases hany : G.any (fun x => x.is_in_data_table) = true
      · -- mixed group
        rw [choose_keepers_mixed hall2 hany]
        have hfilter_all :
            (G.filter (fun x => x.is_in_data_table)).all (fun x => x.is_in_data_table) = true :=
          List.all_eq_true.mpr fun x hx => (List.mem_filter.mp hx).2
        have hfilter_any :
            (G.filter (fun x => x.is_in_data_table)).any (fun x => x.is_in_data_table) = true := by
          rcases List.any_eq_true.mp hany with ⟨x, hx, hrx⟩
          exact List.any_eq_true.mpr ⟨x, List.mem_filter.mpr ⟨hx, hrx⟩, hrx⟩
        cases hrf : f.is_in_data_table with
        | true =>
          have l1 : (G.filter (fun x => x.is_in_data_table) ++ [f]).all
              (fun x => x.is_in_data_table) = true := by
            simp [List.all_append, hfilter_all, hrf]
          have r1 : (G ++ [f]).all (fun x => x.is_in_data_table) = false := by
            simp [List.all_append, hall]
          have r2 : (G ++ [f]).any (fun x => x.is_in_data_table) = true := by
            simp [List.any_append, hany]
          rw [choose_keepers_all l1, choose_keepers_mixed r1 r2, List.filter_append]
          simp [hrf]
        | false =>
          have l1 : (G.filter (fun x => x.is_in_data_table) ++ [f]).all
              (fun x => x.is_in_data_table) = false := by
            simp [List.all_append, hrf]
          have l2 : (G.filter (fun x => x.is_in_data_table) ++ [f]).any
              (fun x => x.is_in_data_table) = true := by
            simp [List.any_append, hfilter_any]
          have r1 : (G ++ [f]).all (fun x => x.is_in_data_table) = false := by
            simp [List.all_append, hall]
          have r2 : (G ++ [f]).any (fun x => x.is_in_data_table) = true := by
            simp [List.any_append, hany]
          rw [choose_keepers_mixed l1 l2, choose_keepers_mixed r1 r2,
            List.filter_append, List.filter_append, List.filter_filter]
          simp [hrf, Bool.and_self]
      · -- no referenced member at all
        have hany2 := Bool.eq_false_iff.mpr hany
        rcases firstMax_of_ne hne with ⟨m, hm⟩
        rw [choose_keepers_none hany2 hm]
        have hmG : m ∈ G := firstMax_mem hm
        have hmref : m.is_in_data_table = false := unref_of_any_false hany2 m hmG
        have hGall := all_false_of_any_false hany2 hne
        have hGfilter : G.filter (fun x => x.is_in_data_table) = [] :=
          List.filter_eq_nil_iff.mpr fun a ha => by
            rw [unref_of_any_false hany2 a ha]; simp
        cases hrf : f.is_in_data_table with
        | true =>
          have l1 : ([m] ++ [f]).all (fun x => x.is_in_data_table) = false := by
            simp [hmref]
          have l2 : ([m] ++ [f]).any (fun x => x.is_in_data_table) = true := by
            simp [hrf]
          have r1 : (G ++ [f]).all (fun x => x.is_in_data_table) = false := by
            simp [List.all_append, hGall]
          have r2 : (G ++ [f]).any (fun x => x.is_in_data_table) = true := by
            simp [List.any_append, hrf]
          rw [choose_keepers_mixed l1 l2, choose_keepers_mixed r1 r2]
          simp [List.filter_append, hGfilter, hmref, hrf]
        | false =>
          have l3 : ([m] ++ [f]).any (fun x => x.is_in_data_table) = false := by
            simp [hmref, hrf]
          have lfm : firstMax ([m] ++ [f]) =
              some (if m.time_updated < f.time_updated then f else m) := by
            rw [firstMax_append_singleton]; simp [firstMax]
          have r3 : (G ++ [f]).any (fun x => x.is_in_data_table) = false := by
            simp [List.any_append, hany2, hrf]
          have rfm : firstMax (G ++ [f]) =
              some (if m.time_updated < f.time_updated then f else m) := by
            rw [firstMax_append_singleton, hm]
          rw [choose_keepers_none l3 lfm, choose_keepers_none r3 rfm]

/- ---------------------------------------------------------------- -/
/- The keeper dictionary built by get_files_to_keep.                 -/
/- ---------------------------------------------------------------- -/

/-- `List.contains` agrees with membership for strings. -/
theorem contains_iff_mem (ks : List String) (k : String) :
    ks.contains k = true ↔ k ∈ ks := List.elem_iff

/-- `keysFM` over one more entry. -/
theorem keysFM_append_singleton (s : List FileMetadata) (f : FileMetadata) :
    keysFM (s ++ [f]) =
      if (keysFM s).contains f.unique_key then keysFM s
      else keysFM s ++ [f.unique_key] := by
  unfold keysFM
  rw [List.foldl_append]
  rfl

/-- Membership in the key list, generalized over the accumulator. -/
theorem mem_keysFM_aux (l : List FileMetadata) :
    ∀ (acc : List String) (k : String),
      k ∈ l.foldl
          (fun ks f => if ks.contains f.unique_key then ks else ks ++ [f.unique_key]) acc ↔
        k ∈ acc ∨ ∃ f ∈ l, f.unique_key = k := by
  induction l with
  | nil => intro acc k; simp
  | cons x xs ih =>
    intro acc k
    simp only [List.foldl_cons]
    rw [ih]
    by_cases hc : acc.contains x.unique_key = true
    · rw [if_pos hc]
      have hxk : x.unique_key ∈ acc := (contains_iff_mem _ _).mp hc
      constructor
      · rintro (h | ⟨f, hf, hfk⟩)
        · exact Or.inl h
        · exact Or.inr ⟨f, List.mem_cons.mpr (Or.inr hf), hfk⟩
      · rintro (h | ⟨f, hf, hfk⟩)
        · exact Or.inl h
        · rcases List.mem_cons.mp hf with h1 | h1
          · exact Or.inl (by rw [← hfk, h1]; exact hxk)
          · exact Or.inr ⟨f, h1, hfk⟩
    · rw [if_neg hc]
      constructor
      · rintro (h | ⟨f, hf, hfk⟩)
        · rcases List.mem_append.mp h with h1 | h1
          · exact Or.inl h1
          · exact Or.inr ⟨x, List.mem_cons_self _ _, (List.mem_singleton.mp h1).symm⟩
        · exact Or.inr ⟨f, List.mem_cons.mpr (Or.inr hf), hfk⟩
      · rintro (h | ⟨f, hf, hfk⟩)
        · exact Or.inl (List.mem_append_left _ h)
        · rcases List.mem_cons.mp hf with h1 | h1
          · refine Or.inl (List.mem_append_right _ ?_)
            rw [← hfk, h1]; exact List.mem_singleton.mpr rfl
          · exact Or.inr ⟨f, h1, hfk⟩

/-- A key occurs in `keysFM l` exactly when some entry of `l` has it. -/
theorem mem_keysFM (l : List FileMetadata) (k : String) :
    k ∈ keysFM l ↔ ∃ f ∈ l, f.unique_key = k := by
  unfold keysFM
  rw [mem_keysFM_aux]
  simp

/-- The key list has no duplicates (generalized over the accumulator). -/
theorem keysFM_nodup_aux (l : List FileMetadata) :
    ∀ acc : List String, acc.Nodup →
      (l.foldl
        (fun ks f => if ks.contains f.unique_key then ks else ks ++ [f.unique_key]) acc).Nodup := by
  induction l with
  | nil => intro acc h; exact h
  | cons x xs ih =>
    intro acc h
    simp only [List.foldl_cons]
    by_cases hc : acc.contains x.unique_key = true
    · rw [if_pos hc]; exact ih acc h
    · rw [if_neg hc]
      refine ih _ (List.nodup_append.mpr ⟨h, List.nodup_singleton _, ?_⟩)
      rw [List.disjoint_singleton]
      intro hmem
      exact hc ((contains_iff_mem _ _).mpr hmem)

/-- The key list has no duplicates. -/
theorem keysFM_nodup (l : List FileMetadata) : (keysFM l).Nodup :=
  keysFM_nodup_aux l [] List.nodup_nil

/-- A group after one more entry: the entry joins exactly its own key's
group. -/
theorem groupOf_append_singleton (s : List FileMetadata) (f : FileMetadata) (k : String) :
    groupOf (s ++ [f]) k =
      groupOf s k ++ (if f.unique_key = k then [f] else []) := by
  unfold groupOf
  rw [List.filter_append]
  congr 1
  by_cases h : f.unique_key = k <;> simp [h]

/-- Dictionary lookup on the canonical keyed map. -/
theorem lookupKeep_map (ks : List String) (v : String → List FileMetadata) (k : String) :
    lookupKeep k (ks.map (fun k2 => (k2, v k2))) =
      if k ∈ ks then some (v k) else none := by
  induction ks with
  | nil => simp [lookupKeep]
  | cons a rest ih =>
    simp only [List.map_cons, lookupKeep]
    by_cases ha : a = k
    · subst ha
      simp
    · rw [if_neg ha, ih]
      by_cases hk : k ∈ rest
      · rw [if_pos hk, if_pos (List.mem_cons.mpr (Or.inr hk))]
      · rw [if_neg hk, if_neg (fun h => by
          rcases List.mem_cons.mp h with h1 | h1
          · exact ha h1.symm
          · exact hk h1)]

/-- Dictionary value update on the canonical keyed map. -/
theorem updateKeep_map (ks : List String) (hnd : ks.Nodup)
    (w : String → List FileMetadata) (k : String) (v : List FileMetadata) :
    updateKeep k v (ks.map (fun k2 => (k2, w k2))) =
      ks.map (fun k2 => (k2, if k2 = k then v else w k2)) := by
  induction ks with
  | nil => rfl
  | cons a rest ih =>
    have hna : a ∉ rest := (List.nodup_cons.mp hnd).1
    have hndr : rest.Nodup := (List.nodup_cons.mp hnd).2
    simp only [List.map_cons, updateKeep]
    by_cases ha : a = k
    · rw [if_pos ha, if_pos ha]
      subst ha
      congr 1
      apply List.map_congr_left
      intro k2 hk2
      rw [if_neg (show ¬k2 = a from fun h => hna (h ▸ hk2))]
    · rw [if_neg ha, if_neg ha, ih hndr]

/-- The loop body of `get_files_to_keep` when the key is new. -/
theorem keepStep_lookup_none (acc : List (String × List FileMetadata)) (f : FileMetadata)
    (h : lookupKeep f.unique_key acc = none) :
    keepStep acc f = acc ++ [(f.unique_key, [f])] := by
  unfold keepStep
  rw [h]

/-- The loop body of `get_files_to_keep` when the key has been seen. -/
theorem keepStep_lookup_some (acc : List (String × List FileMetadata)) (f : FileMetadata)
    (kept : List FileMetadata) (h : lookupKeep f.unique_key acc = some kept) :
    keepStep acc f = updateKeep f.unique_key (choose_keepers (kept ++ [f])) acc := by
  unfold keepStep
  rw [h]

/-- One loop iteration of `get_files_to_keep` keeps the dictionary in the
canonical shape: each key seen so far maps to `choose_keepers` of its
complete group among the entries processed so far. -/
theorem keepStep_canonical (s : List FileMetadata) (f : FileMetadata) :
    keepStep ((keysFM s).map (fun k => (k, choose_keepers (groupOf s k)))) f =
      (keysFM (s ++ [f])).map (fun k => (k, choose_keepers (groupOf (s ++ [f]) k))) := by
  by_cases hmem : f.unique_key ∈ keysFM s
  · rw [keepStep_lookup_some _ _ _ (by rw [lookupKeep_map, if_pos hmem]),
      updateKeep_map _ (keysFM_nodup s), keysFM_append_singleton,
      if_pos ((contains_iff_mem _ _).mpr hmem)]
    apply List.map_congr_left
    intro k hk
    by_cases hkf : k = f.unique_key
    · subst hkf
      rw [if_pos rfl, choose_keepers_snoc, groupOf_append_singleton, if_pos rfl]
    · rw [if_neg hkf, groupOf_append_singleton,
        if_neg (fun h => hkf h.symm), List.append_nil]
  · rw [keepStep_lookup_none _ _ (by rw [lookupKeep_map, if_neg hmem]),
      keysFM_append_singleton,
      if_neg (fun h => hmem ((contains_iff_mem _ _).mp h)), List.map_append]
    congr 1
    · apply List.map_congr_left
      intro k hk
      rw [groupOf_append_singleton,
        if_neg (show ¬f.unique_key = k from fun h => hmem (by rw [h]; exact hk)),
        List.append_nil]
    · have hempty : groupOf s f.unique_key = [] := by
        unfold groupOf
        refine List.filter_eq_nil_iff.mpr fun a ha hkey => ?_
        have : a.unique_key = f.unique_key := by
          simpa using hkey
        exact hmem ((mem_keysFM s f.unique_key).mpr ⟨a, ha, this⟩)
      rw [List.map_singleton, groupOf_append_singleton, if_pos rfl, hempty,
        List.nil_append, choose_keepers_singleton]

/-- The dictionary built by the loop of `get_files_to_keep` is canonical. -/
theorem keepFold_eq (l : List FileMetadata) :
    l.foldl keepStep [] =
      (keysFM l).map (fun k => (k, choose_keepers (groupOf l k))) := by
  induction l using List.reverseRecOn with
  | nil => rfl
  | append_singleton s f ih =>
    rw [List.foldl_append, List.foldl_cons, List.foldl_nil, ih]
    exact keepStep_canonical s f

/-- The incremental keeper computation equals the one-shot per-group
computation, groups taken in first-occurrence order. -/
theorem get_files_to_keep_eq (l : List FileMetadata) :
    get_files_to_keep l = oneShotKeepers l := by
  unfold get_files_to_keep oneShotKeepers
  rw [keepFold_eq, List.flatMap_map]

/-- Membership characterization of the keeper set. -/
theorem mem_get_files_to_keep (l : List FileMetadata) (p : String) :
    p ∈ get_files_to_keep l ↔
      ∃ k ∈ keysFM l, ∃ f ∈ choose_keepers (groupOf l k), f.file_path = p := by
  rw [get_files_to_keep_eq]
  unfold oneShotKeepers
  simp [List.mem_flatMap, List.mem_map]

/-- Every referenced inventory entry is kept. -/
theorem referenced_mem_keep {l : List FileMetadata} {f : FileMetadata}
    (hf : f ∈ l) (href : f.is_in_data_table = true) :
    f.file_path ∈ get_files_to_keep l := by
  rw [mem_get_files_to_keep]
  refine ⟨f.unique_key, (mem_keysFM _ _).mpr ⟨f, hf, rfl⟩, f, ?_, rfl⟩
  refine choose_keepers_keeps_referenced ?_ href
  unfold groupOf
  exact List.mem_filter.mpr ⟨hf, by simp⟩

/- ---------------------------------------------------------------- -/
/- Order independence of the keeper set (absent time ties).          -/
/- ---------------------------------------------------------------- -/

/-- Group members carry the group's key. -/
theorem key_of_mem_groupOf {l : List FileMetadata} {k : String} {f : FileMetadata}
    (h : f ∈ groupOf l k) : f.unique_key = k := by
  unfold groupOf at h
  have := (List.mem_filter.mp h).2
  simpa using this

/-- Group members belong to the inventory. -/
theorem mem_of_mem_groupOf {l : List FileMetadata} {k : String} {f : FileMetadata}
    (h : f ∈ groupOf l k) : f ∈ l :=
  (List.mem_filter.mp h).1

/-- Over a permutation of a group whose members have pairwise distinct
`time_updated`, the chosen keepers are preserved. -/
theorem choose_keepers_perm_mem {G1 G2 : List FileMetadata} (hp : G1.Perm G2)
    (hdist : ∀ f g, f ∈ G1 → g ∈ G1 → f.time_updated = g.time_updated → f = g)
    {x : FileMetadata} (hx : x ∈ choose_keepers G1) : x ∈ choose_keepers G2 := by
  by_cases hall : G1.all (fun g => g.is_in_data_table) = true
  · have hall2 : G2.all (fun g => g.is_in_data_table) = true :=
      List.all_eq_true.mpr fun y hy => List.all_eq_true.mp hall y (hp.mem_iff.mpr hy)
    rw [choose_keepers_all hall] at hx
    rw [choose_keepers_all hall2]
    exact hp.mem_iff.mp hx
  · have hall2 : G2.all (fun g => g.is_in_data_table) = false := by
      cases hh : G2.all (fun g => g.is_in_data_table) with
      | false => rfl
      | true =>
        exact absurd
          (List.all_eq_true.mpr fun y hy => List.all_eq_true.mp hh y (hp.mem_iff.mp hy))
          hall
    by_cases hany : G1.any (fun g => g.is_in_data_table) = true
    · have hany2 : G2.any (fun g => g.is_in_data_table) = true := by
        rcases List.any_eq_true.mp hany with ⟨y, hy, hry⟩
        exact List.any_eq_true.mpr ⟨y, hp.mem_iff.mp hy, hry⟩
      rw [choose_keepers_mixed (Bool.eq_false_iff.mpr hall) hany] at hx
      rw [choose_keepers_mixed hall2 hany2]
      have hm := List.mem_filter.mp hx
      exact List.mem_filter.mpr ⟨hp.mem_iff.mp hm.1, hm.2⟩
    · have hany1 := Bool.eq_false_iff.mpr hany
      have hany2 : G2.any (fun g => g.is_in_data_table) = false := by
        cases hh : G2.any (fun g => g.is_in_data_table) with
        | false => rfl
        | true =>
          rcases List.any_eq_true.mp hh with ⟨y, hy, hry⟩
          exact absurd (List.any_eq_true.mpr ⟨y, hp.mem_iff.mpr hy, hry⟩) hany
      have hG1ne : G1 ≠ [] := List.ne_nil_of_mem (choose_keepers_subset hx)
      have hG2ne : G2 ≠ [] := by
        intro h
        exact hG1ne (List.Perm.eq_nil (h ▸ hp))
      rcases firstMax_of_ne hG1ne with ⟨m1, hm1⟩
      rcases firstMax_of_ne hG2ne with ⟨m2, hm2⟩
      rw [choose_keepers_none hany1 hm1] at hx
      rw [choose_keepers_none hany2 hm2]
      have hm1G1 := firstMax_mem hm1
      have hm2G1 : m2 ∈ G1 := hp.mem_iff.mpr (firstMax_mem hm2)
      have h12 : m1.time_updated = m2.time_updated :=
        le_antisymm (firstMax_le hm2 m1 (hp.mem_iff.mp hm1G1)) (firstMax_le hm1 m2 hm2G1)
      rw [List.mem_singleton] at hx ⊢
      rw [hx, hdist m1 m2 hm1G1 hm2G1 h12]

/-- Keeper-set membership is preserved along an inventory permutation when
no duplicate group has a `time_updated` tie. -/
theorem keep_mono_of_perm {l1 l2 : List FileMetadata} (hperm : l1.Perm l2)
    (hdist : ∀ f g, f ∈ l1 → g ∈ l1 → f.unique_key = g.unique_key →
      f.time_updated = g.time_updated → f = g)
    (p : String) (hp : p ∈ get_files_to_keep l1) : p ∈ get_files_to_keep l2 := by
  rw [mem_get_files_to_keep] at hp ⊢
  rcases hp with ⟨k, hk, f, hf, hfp⟩
  refine ⟨k, ?_, f, ?_, hfp⟩
  · rw [mem_keysFM] at hk ⊢
    rcases hk with ⟨g, hg, hgk⟩
    exact ⟨g, hperm.mem_iff.mp hg, hgk⟩
  · refine choose_keepers_perm_mem
      (show (groupOf l1 k).Perm (groupOf l2 k) from hperm.filter _) ?_ hf
    intro a b ha hb hab
    exact hdist a b (mem_of_mem_groupOf ha) (mem_of_mem_groupOf hb)
      ((key_of_mem_groupOf ha).trans (key_of_mem_groupOf hb).symm) hab

/-- C7 (amended).  The incremental fold of `get_files_to_keep` computes
exactly the one-shot per-group `choose_keepers` result (groups in
first-occurrence order); and when no two distinct entries of a
duplicate group share a `time_updated`, the keeper set does not depend
on the order in which entries are encountered.  (With a tie it does;
see the counterexample.) -/
theorem incremental_keepers_spec :
    (∀ l, get_files_to_keep l = oneShotKeepers l) ∧
    (∀ l1 l2, l1.Perm l2 →
      (∀ f g, f ∈ l1 → g ∈ l1 → f.unique_key = g.unique_key →
        f.time_updated = g.time_updated → f = g) →
      ∀ p, (p ∈ get_files_to_keep l1 ↔ p ∈ get_files_to_keep l2)) := by
  refine ⟨get_files_to_keep_eq, ?_⟩
  intro l1 l2 hperm hdist p
  constructor
  · exact keep_mono_of_perm hperm hdist p
  · refine keep_mono_of_perm hperm.symm ?_ p
    intro f g hf hg
    exact hdist f g (hperm.mem_iff.mpr hf) (hperm.mem_iff.mpr hg)

/-- C7 counterexample: with a `time_updated` tie in an all-unreferenced
duplicate group, the keeper set depends on the encounter order, so the
fold is not order-independent as claimed. -/
theorem incremental_keepers_order_dependent :
    List.Perm [sampleUnrefA, sampleUnrefB] [sampleUnrefB, sampleUnrefA] ∧
    get_files_to_keep [sampleUnrefA, sampleUnrefB] = ["gs://bkt/sub1/a/x.bam"] ∧
    get_files_to_keep [sampleUnrefB, sampleUnrefA] = ["gs://bkt/sub1/b/x.bam"] :=
  ⟨by decide, by decide, by decide⟩

/-- Witness for C7: on a tie-free inventory the equality and the order
independence apply. -/
theorem incremental_keepers_spec_witness :
    get_files_to_keep [sampleUnrefA, sampleUnrefOld] =
      oneShotKeepers [sampleUnrefA, sampleUnrefOld] ∧
    ("gs://bkt/sub1/a/x.bam" ∈ get_files_to_keep [sampleUnrefA, sampleUnrefOld] ↔
      "gs://bkt/sub1/a/x.bam" ∈ get_files_to_keep [sampleUnrefOld, sampleUnrefA]) :=
  ⟨incremental_keepers_spec.1 [sampleUnrefA, sampleUnrefOld],
   incremental_keepers_spec.2 [sampleUnrefA, sampleUnrefOld] [sampleUnrefOld, sampleUnrefA]
     (by decide)
     (by
       intro f g hf hg hk ht
       fin_cases hf <;> fin_cases hg <;> first | rfl | exact absurd ht (by decide))
     "gs://bkt/sub1/a/x.bam"⟩

/- ---------------------------------------------------------------- -/
/- Membership characterizations of the candidate-selection sets.     -/
/- ---------------------------------------------------------------- -/

/-- A path is eligible exactly when some inventory entry carries it and
its derived submission id is a known submission. -/
theorem mem_eligible (inv : List FileMetadata) (subs : List String) (p : String) :
    p ∈ eligible_bucket_files inv subs ↔
      ∃ f ∈ inv, f.file_path = p ∧ f.submission_id ∈ subs := by
  unfold eligible_bucket_files
  simp only [List.mem_map, List.mem_filter, decide_eq_true_iff]
  constructor
  · rintro ⟨f, ⟨hf, hsub⟩, hfp⟩
    exact ⟨f, hf, hfp, hsub⟩
  · rintro ⟨f, hf, hfp, hsub⟩
    exact ⟨f, ⟨hf, hsub⟩, hfp⟩

/-- Raw candidates in keep-one mode: eligible minus the keeper set. -/
theorem mem_potential_keep_one (inv : List FileMetadata) (subs ref : List String)
    (p : String) :
    p ∈ potential_deletable_files true inv subs ref ↔
      p ∈ eligible_bucket_files inv subs ∧ p ∉ get_files_to_keep inv := by
  unfold potential_deletable_files
  simp [List.mem_filter]

/-- Raw candidates in plain mode: eligible minus the referenced set. -/
theorem mem_potential_plain (inv : List FileMetadata) (subs ref : List String)
    (p : String) :
    p ∈ potential_deletable_files false inv subs ref ↔
      p ∈ eligible_bucket_files inv subs ∧ p ∉ ref := by
  unfold potential_deletable_files
  simp [List.mem_filter]

/-- Final candidates: raw candidates passing the safety filter. -/
theorem mem_deletable (args : MopArgs) (inv : List FileMetadata)
    (subs ref : List String) (p : String) :
    p ∈ deletable_files args inv subs ref ↔
      p ∈ potential_deletable_files args.keep_one inv subs ref ∧
        can_delete p args.include_globs args.exclude_globs = true := by
  unfold deletable_files
  exact List.mem_filter

/-- C2.  The selection pipeline of `mop`: eligibility is exactly
submission-id membership (independent of reference status); the raw
candidate set is eligible minus keepers (keep-one mode) respectively
eligible minus the referenced set (plain mode); the final candidates
are the raw candidates passing `can_delete`. -/
theorem mop_candidate_selection (args : MopArgs) (inv : List FileMetadata)
    (subs ref : List String) :
    (∀ p, p ∈ eligible_bucket_files inv subs ↔
      ∃ f ∈ inv, f.file_path = p ∧ f.submission_id ∈ subs) ∧
    (∀ f ∈ inv, f.submission_id ∉ subs →
      inv.Pairwise (fun a b => a.file_path ≠ b.file_path) →
      f.file_path ∉ eligible_bucket_files inv subs) ∧
    (∀ p, p ∈ potential_deletable_files true inv subs ref ↔
      p ∈ eligible_bucket_files inv subs ∧ p ∉ get_files_to_keep inv) ∧
    (∀ p, p ∈ potential_deletable_files false inv subs ref ↔
      p ∈ eligible_bucket_files inv subs ∧ p ∉ ref) ∧
    (∀ p, p ∈ deletable_files args inv subs ref ↔
      p ∈ potential_deletable_files args.keep_one inv subs ref ∧
        can_delete p args.include_globs args.exclude_globs = true) := by
  refine ⟨mem_eligible inv subs, ?_, mem_potential_keep_one inv subs ref,
    mem_potential_plain inv subs ref, mem_deletable args inv subs ref⟩
  intro f hf hsub hpw hmem
  rcases (mem_eligible inv subs f.file_path).mp hmem with ⟨g, hg, hgp, hgsub⟩
  have hfg : g = f := by
    by_contra hne
    exact (hpw.forall (fun a b h => (h ·.symm)) hg hf hne) hgp
  rw [hfg] at hgsub
  exact hsub hgsub

/-- Witness for C2: the object outside every known submission directory is
not eligible, whatever its reference status. -/
theorem mop_candidate_selection_witness :
    (blobMetadata "bkt" ["gs://bkt/sub1/x.bam"]
        ⟨"unknown123/foo.txt", "h2", 7, 0, 1⟩).file_path ∉
      eligible_bucket_files invSample ["sub1"] :=
  (mop_candidate_selection argsSample invSample ["sub1"]
      ["gs://bkt/sub1/x.bam"]).2.1 _ (by decide) (by decide) (by decide)

/-- C10.  Referenced inventory entries are always among the keepers, and
keep-one mode deletes only files that plain mode would also delete. -/
theorem keep_one_subset_plain (inv : List FileMetadata) (subs ref : List String)
    (args : MopArgs)
    (hconsist : ∀ f ∈ inv, f.is_in_data_table = decide (f.file_path ∈ ref)) :
    (∀ f ∈ inv, f.is_in_data_table = true → f.file_path ∈ get_files_to_keep inv) ∧
    (∀ p, p ∈ deletable_files { args with keep_one := true } inv subs ref →
      p ∈ deletable_files { args with keep_one := false } inv subs ref) := by
  refine ⟨fun f hf href => referenced_mem_keep hf href, ?_⟩
  intro p hp
  rw [mem_deletable] at hp ⊢
  rcases hp with ⟨hpot, hcan⟩
  refine ⟨?_, hcan⟩
  rw [show ({ args with keep_one := true } : MopArgs).keep_one = true from rfl] at hpot
  rw [show ({ args with keep_one := false } : MopArgs).keep_one = false from rfl]
  rw [mem_potential_keep_one] at hpot
  rw [mem_potential_plain]
  rcases hpot with ⟨helig, hkeep⟩
  refine ⟨helig, ?_⟩
  intro href
  rcases (mem_eligible inv subs p).mp helig with ⟨f, hf, hfp, _⟩
  have hfref : f.is_in_data_table = true := by
    rw [hconsist f hf, hfp]
    exact decide_eq_true href
  exact hkeep (hfp ▸ referenced_mem_keep hf hfref)

/-- Witness for C10: in the sample inventory the unreferenced duplicate is
deleted by keep-one mode, hence also by plain mode. -/
theorem keep_one_subset_plain_witness :
    "gs://bkt/sub1/old/x.bam" ∈
      deletable_files { argsSample with keep_one := false } invSample
        ["sub1"] ["gs://bkt/sub1/x.bam"] :=
  (keep_one_subset_plain invSample ["sub1"] ["gs://bkt/sub1/x.bam"] argsSample
      (by decide)).2 "gs://bkt/sub1/old/x.bam" (by decide)

/- ---------------------------------------------------------------- -/
/- The safety filter can_delete.                                     -/
/- ---------------------------------------------------------------- -/

/-- A protected filename is never deletable, whatever the glob lists. -/
theorem can_delete_protected (f : String) (inc exc : List String)
    (hp : protectedName (mop_filename f) = true) :
    can_delete f inc exc = false := by
  unfold can_delete
  by_cases h1 : strEndsWith (mop_filename f) ".log" = true
  · simp [h1]
  · by_cases h2 : strEndsWith (mop_filename f) "-rc.txt" = true
    · simp [h1, h2]
    · by_cases h3 : mop_filename f = "rc"
      · simp [h1, h2, h3]
      · by_cases h4 : mop_filename f = "exec.sh" ∨ mop_filename f = "script"
        · simp [h1, h2, h3, h4]
        · by_cases h5 : mop_filename f = "stderr" ∨ mop_filename f = "stdout" ∨
              mop_filename f = "output"
          · simp [h1, h2, h3, h4, h5]
          · exfalso
            push_neg at h4 h5
            unfold protectedName at hp
            simp [h1, h2, h3, h4.1, h4.2, h5.1, h5.2.1, h5.2.2] at hp

/-- On a non-protected filename, `can_delete` is decided entirely by the
glob lists. -/
theorem can_delete_unprotected (f : String) (inc exc : List String)
    (hp : protectedName (mop_filename f) = false) :
    can_delete f inc exc =
      (if !inc.isEmpty then inc.any (fun g => fnmatchcase (mop_filename f) g)
       else if !exc.isEmpty then !(exc.any (fun g => fnmatchcase (mop_filename f) g))
       else true) := by
  unfold protectedName at hp
  simp only [Bool.or_eq_false_iff, decide_eq_false_iff_not] at hp
  obtain ⟨⟨⟨⟨⟨⟨⟨hp1, hp2⟩, hp3⟩, hp4⟩, hp5⟩, hp6⟩, hp7⟩, hp8⟩ := hp
  unfold can_delete
  rw [if_neg (by simp [hp1]), if_neg (by simp [hp2]), if_neg hp3,
    if_neg (fun h => h.elim hp4 hp5),
    if_neg (fun h => h.elim hp6 (fun h2 => h2.elim hp7 hp8))]

/-- C5.  A path whose filename is protected (a `.log` or `-rc.txt` suffix,
or one of `rc`, `exec.sh`, `script`, `stderr`, `stdout`, `output`) is
never deletable under any include/exclude configuration, and never
appears in the final candidate set of any run. -/
theorem protected_never_deleted (f : String)
    (hp : protectedName (mop_filename f) = true) :
    (∀ inc exc, can_delete f inc exc = false) ∧
    (∀ (args : MopArgs) (inv : List FileMetadata) (subs ref : List String),
      f ∉ deletable_files args inv subs ref) := by
  refine ⟨fun inc exc => can_delete_protected f inc exc hp, ?_⟩
  intro args inv subs ref hmem
  have hcan := ((mem_deletable args inv subs ref f).mp hmem).2
  rw [can_delete_protected f _ _ hp] at hcan
  exact Bool.noConfusion hcan

/-- Witness for C5: the filename `stdout` survives even an include glob
that matches it and is absent from a concrete candidate set. -/
theorem protected_never_deleted_witness :
    can_delete "gs://bkt/sub1/stdout" ["stdout"] ["*"] = false ∧
    "gs://bkt/sub1/stdout" ∉
      deletable_files argsSample invSample ["sub1"] [] :=
  ⟨(protected_never_deleted "gs://bkt/sub1/stdout" (by decide)).1 ["stdout"] ["*"],
   (protected_never_deleted "gs://bkt/sub1/stdout" (by decide)).2 argsSample invSample
     ["sub1"] []⟩

/-- C6.  For a non-protected filename: a non-empty include list decides
deletability alone (a file is deletable exactly when it matches some
include glob, the exclude list being ignored); otherwise a non-empty
exclude list vetoes exactly the matching files; otherwise the file is
deletable. -/
theorem glob_precedence (f : String) (inc exc : List String)
    (hp : protectedName (mop_filename f) = false) :
    (inc ≠ [] →
      can_delete f inc exc = inc.any (fun g => fnmatchcase (mop_filename f) g)) ∧
    (inc = [] → exc ≠ [] →
      can_delete f inc exc = !(exc.any (fun g => fnmatchcase (mop_filename f) g))) ∧
    (inc = [] → exc = [] → can_delete f inc exc = true) := by
  refine ⟨?_, ?_, ?_⟩
  · intro hinc
    rw [can_delete_unprotected f inc exc hp, if_pos]
    rcases inc with _ | ⟨i, is⟩
    · exact absurd rfl hinc
    · simp
  · intro hinc hexc
    subst hinc
    rw [can_delete_unprotected f [] exc hp]
    rcases exc with _ | ⟨e, es⟩
    · exact absurd rfl hexc
    · simp
  · intro hinc hexc
    subst hinc
    subst hexc
    rw [can_delete_unprotected f [] [] hp]
    rfl

/-- Witness for C6: concrete evaluations of the three branches. -/
theorem glob_precedence_witness :
    can_delete "gs://bkt/sub1/data.bam" ["*.bam"] ["*"] =
      List.any ["*.bam"] (fun g => fnmatchcase (mop_filename "gs://bkt/sub1/data.bam") g) ∧
    can_delete "gs://bkt/sub1/data.bam" [] ["*.bam"] =
      !(List.any ["*.bam"] (fun g => fnmatchcase (mop_filename "gs://bkt/sub1/data.bam") g)) ∧
    can_delete "gs://bkt/sub1/data.bam" [] [] = true :=
  ⟨(glob_precedence "gs://bkt/sub1/data.bam" ["*.bam"] ["*"] (by decide)).1 (by decide),
   (glob_precedence "gs://bkt/sub1/data.bam" [] ["*.bam"] (by decide)).2.1 rfl (by decide),
   (glob_precedence "gs://bkt/sub1/data.bam" [] [] (by decide)).2.2 rfl rfl⟩

/-- C3 counterexample: an include glob that matches the protected filename
`stdout` does not make it deletable — there is no force-include escape
for protected names. -/
theorem no_force_include_for_protected :
    fnmatchcase "stdout" "stdout" = true ∧
    mop_filename "gs://bkt/sub1/stdout" = "stdout" ∧
    can_delete "gs://bkt/sub1/stdout" ["stdout"] [] = false :=
  ⟨by decide, by decide, by decide⟩

/-- C3 (amended).  The final candidate set is always a subset of the
eligible set, and it never contains a path with a protected filename —
under every include/exclude configuration, force-included or not. -/
theorem candidates_subset_eligible (args : MopArgs) (inv : List FileMetadata)
    (subs ref : List String) :
    (∀ p, p ∈ deletable_files args inv subs ref →
      p ∈ eligible_bucket_files inv subs) ∧
    (∀ p, p ∈ deletable_files args inv subs ref →
      protectedName (mop_filename p) = false) := by
  constructor
  · intro p hp
    have hpot := ((mem_deletable args inv subs ref p).mp hp).1
    cases hk : args.keep_one with
    | true =>
      rw [hk] at hpot
      exact ((mem_potential_keep_one inv subs ref p).mp hpot).1
    | false =>
      rw [hk] at hpot
      exact ((mem_potential_plain inv subs ref p).mp hpot).1
  · intro p hp
    have hcan := ((mem_deletable args inv subs ref p).mp hp).2
    cases hprot : protectedName (mop_filename p) with
    | false => rfl
    | true =>
      rw [can_delete_protected p _ _ hprot] at hcan
      exact Bool.noConfusion hcan

/-- Witness for C3: the amended subset and protection facts on a concrete
run. -/
theorem candidates_subset_eligible_witness :
    "gs://bkt/sub1/old/x.bam" ∈ eligible_bucket_files invSample ["sub1"] ∧
    protectedName (mop_filename "gs://bkt/sub1/old/x.bam") = false :=
  ⟨(candidates_subset_eligible argsSample invSample ["sub1"]
      ["gs://bkt/sub1/x.bam"]).1 "gs://bkt/sub1/old/x.bam" (by decide),
   (candidates_subset_eligible argsSample invSample ["sub1"]
      ["gs://bkt/sub1/x.bam"]).2 "gs://bkt/sub1/old/x.bam" (by decide)⟩

/- ---------------------------------------------------------------- -/
/- Derivation of the submission id from the object path.             -/
/- ---------------------------------------------------------------- -/

/-- A '/'-free segment followed by '/' consumes one unit of split
budget. -/
theorem splitSlashMax_seg (cs : List Char) (hcs : ('/' : Char) ∉ cs) :
    ∀ (n : Nat) (rest : List Char),
      splitSlashMax (n + 1) (cs ++ '/' :: rest) = cs :: splitSlashMax n rest := by
  induction cs with
  | nil =>
    intro n rest
    simp [splitSlashMax]
  | cons c cs2 ih =>
    intro n rest
    have hc : ¬c = '/' := fun h => hcs (by rw [h]; exact List.mem_cons_self _ _)
    have hcs2 : ('/' : Char) ∉ cs2 := fun h => hcs (List.mem_cons.mpr (Or.inr h))
    show splitSlashMax (n + 1) (c :: (cs2 ++ '/' :: rest)) = _
    simp only [splitSlashMax]
    rw [if_neg hc, ih hcs2 n rest]

/-- With budget one, the head of the split is everything before the first
'/' (the whole string when it has none). -/
theorem splitSlashMax_one_head (cs : List Char) :
    ∃ t, splitSlashMax 1 cs = cs.takeWhile (fun c => c ≠ '/') :: t := by
  induction cs with
  | nil => exact ⟨[], rfl⟩
  | cons c cs2 ih =>
    by_cases hc : c = '/'
    · subst hc
      exact ⟨splitSlashMax 0 cs2, by simp [splitSlashMax, List.takeWhile_cons]⟩
    · rcases ih with ⟨t, ht⟩
      refine ⟨t, ?_⟩
      show splitSlashMax 1 (c :: cs2) = _
      simp only [splitSlashMax]
      rw [if_neg hc, ht]
      simp [List.takeWhile_cons, hc]

/-- The four-way split of a well-formed `gs://bucket/...` path. -/
theorem splitSlashMax_gs (bucket rest : List Char) (hb : ('/' : Char) ∉ bucket) :
    splitSlashMax 4 ('g' :: 's' :: ':' :: '/' :: '/' :: (bucket ++ '/' :: rest)) =
      ['g', 's', ':'] :: [] :: bucket :: splitSlashMax 1 rest := by
  have h1 := splitSlashMax_seg ['g', 's', ':'] (by decide) 3 ('/' :: (bucket ++ '/' :: rest))
  have h2 := splitSlashMax_seg ([] : List Char) (by simp) 2 (bucket ++ '/' :: rest)
  have h3 := splitSlashMax_seg bucket hb 1 rest
  simp only [List.cons_append, List.nil_append] at h1 h2
  norm_num at h1 h2 h3
  rw [h1, h2, h3]

/-- C4 (amended).  For every object `gs://bucket/filename` the index-3
access of `split('/', 4)` always succeeds (no error), and the derived
submission id is the part of the object name before its first '/'.  In
particular an object at the bucket root gets its own filename as
submission id — not "no submission id" — and is therefore eligible
exactly when that string happens to be a known submission id. -/
theorem submission_id_derivation (bucket filename : String)
    (hb : ('/' : Char) ∉ bucket.data) :
    deriveSubmissionId ("gs://" ++ bucket ++ "/" ++ filename) =
      some (String.mk (filename.data.takeWhile (fun c => c ≠ '/'))) := by
  unfold deriveSubmissionId
  have hdata : ("gs://" ++ bucket ++ "/" ++ filename).data =
      'g' :: 's' :: ':' :: '/' :: '/' :: (bucket.data ++ '/' :: filename.data) := by
    simp [String.data_append]
  rw [hdata, splitSlashMax_gs bucket.data filename.data hb]
  rcases splitSlashMax_one_head filename.data with ⟨t, ht⟩
  rw [ht]
  rfl

/-- C4 counterexample: a bucket-root object does not lack a submission id —
the code derives its filename as the submission id, and such an object
is eligible whenever that filename is in the submission-id set. -/
theorem root_object_submission_id :
    deriveSubmissionId "gs://bkt/foo.txt" = some "foo.txt" ∧
    (blobMetadata "bkt" [] ⟨"foo.txt", "h", 1, 0, 0⟩).file_path ∈
      eligible_bucket_files [blobMetadata "bkt" [] ⟨"foo.txt", "h", 1, 0, 0⟩]
        ["foo.txt"] :=
  ⟨by decide, by decide⟩

/-- Witness for C4: the derivation on a normal submission-directory path
yields the directory name. -/
theorem submission_id_derivation_witness :
    deriveSubmissionId ("gs://" ++ "bkt" ++ "/" ++ "sub1/x.bam") =
      some (String.mk ("sub1/x.bam".data.takeWhile (fun c => c ≠ '/'))) :=
  submission_id_derivation "bkt" "sub1/x.bam" (by decide)

/- ---------------------------------------------------------------- -/
/- The execution tail of mop: dry run, confirmation, manifest.       -/
/- ---------------------------------------------------------------- -/

/-- C8 (amended).  The modelled tail of `mop` always exits 0; in dry-run
mode it deletes nothing and — provided the candidate set is non-empty —
prints the candidate count and human-readable total size; a declined
confirmation (no `--yes`, answer no) also deletes nothing.  (With an
empty candidate set the source returns before the summary block, so a
dry run then prints no summary; see the counterexample.) -/
theorem mop_dry_run_decline (args : MopArgs) (inv : List FileMetadata)
    (subs ref : List String) (confirm : Bool) :
    (mop_run args inv subs ref confirm).exit_code = 0 ∧
    (args.dry_run = true →
      (mop_run args inv subs ref confirm).deleted = [] ∧
      (deletable_files args inv subs ref ≠ [] →
        (mop_run args inv subs ref confirm).printed_summary =
          some ((deletable_files args inv subs ref).length,
            human_readable_size
              (((deletable_files args inv subs ref).map (sizeOfPath inv)).sum)))) ∧
    (args.yes = false → confirm = false →
      (mop_run args inv subs ref confirm).deleted = []) := by
  by_cases hlen : (deletable_files args inv subs ref).length = 0
  · have hnil : deletable_files args inv subs ref = [] := List.length_eq_zero.mp hlen
    simp [mop_run, hlen, hnil]
  · cases hdr : args.dry_run with
    | true => simp [mop_run, hlen, hdr]
    | false =>
      cases hy : args.yes with
      | false =>
        cases confirm with
        | false => simp [mop_run, hlen, hdr, hy]
        | true => simp [mop_run, hlen, hdr, hy]
      | true => simp [mop_run, hlen, hdr, hy]

/-- C8 counterexample: a dry run whose candidate set is empty returns
success without printing any summary (the source returns before the
summary block), so "dry-run prints the candidate count and size" does
not hold of every dry run. -/
theorem dry_run_empty_prints_nothing :
    argsDry.dry_run = true ∧
    mop_run argsDry [] [] [] true =
      { deleted := [], exit_code := 0, printed_summary := none, manifest := none } :=
  ⟨rfl, by decide⟩

/-- Witness for C8: a dry run over the sample inventory deletes nothing,
exits 0 and prints the summary. -/
theorem mop_dry_run_decline_witness :
    (mop_run argsDry invSample ["sub1"] ["gs://bkt/sub1/x.bam"] false).deleted = [] ∧
    (mop_run argsDry invSample ["sub1"] ["gs://bkt/sub1/x.bam"] false).printed_summary =
      some ((deletable_files argsDry invSample ["sub1"] ["gs://bkt/sub1/x.bam"]).length,
        human_readable_size
          (((deletable_files argsDry invSample ["sub1"] ["gs://bkt/sub1/x.bam"]).map
              (sizeOfPath invSample)).sum)) :=
  ⟨((mop_dry_run_decline argsDry invSample ["sub1"] ["gs://bkt/sub1/x.bam"] false).2.1
      rfl).1,
   ((mop_dry_run_decline argsDry invSample ["sub1"] ["gs://bkt/sub1/x.bam"] false).2.1
      rfl).2 (by decide)⟩

/-- The manifest row order as a proposition. -/
theorem manifestLe_iff (a b : ManifestRow) :
    manifestLe a b = true ↔
      (a.to_delete = true ∧ b.to_delete = false) ∨
        (a.to_delete = b.to_delete ∧ b.file_path ≤ a.file_path) := by
  unfold manifestLe
  cases ha : a.to_delete <;> cases hb : b.to_delete <;> simp [ha, hb]

/-- Transitivity of the manifest row order. -/
theorem manifestLe_trans (a b c : ManifestRow) (hab : manifestLe a b = true)
    (hbc : manifestLe b c = true) : manifestLe a c = true := by
  rw [manifestLe_iff] at hab hbc ⊢
  rcases hab with ⟨ha, hb⟩ | ⟨hab2, hpab⟩
  · rcases hbc with ⟨hb2, hc⟩ | ⟨hbc2, hpbc⟩
    · exact Bool.noConfusion (hb.symm.trans hb2)
    · exact Or.inl ⟨ha, hbc2.symm.trans hb⟩
  · rcases hbc with ⟨hb2, hc⟩ | ⟨hbc2, hpbc⟩
    · exact Or.inl ⟨hab2.trans hb2, hc⟩
    · exact Or.inr ⟨hab2.trans hbc2, le_trans hpbc hpab⟩

/-- Totality of the manifest row order. -/
theorem manifestLe_total (a b : ManifestRow) :
    (manifestLe a b || manifestLe b a) = true := by
  cases ha : a.to_delete <;> cases hb : b.to_delete <;>
    simp [manifestLe, ha, hb] <;> exact le_total _ _

/-- C9.  When `mop` writes a manifest, its rows are exactly the annotated
inventory entries (each entry annotated with its deletion decision and
human-readable size, in the column set of the structure), sorted by
(to_delete descending, file_path descending); and neither the final
candidate set nor the deleted files depend on the manifest flag. -/
theorem manifest_spec (args : MopArgs) (inv : List FileMetadata)
    (subs ref : List String) (confirm : Bool) :
    (∀ rows, (mop_run args inv subs ref confirm).manifest = some rows →
      rows.Perm (inv.map (annotateRow (deletable_files args inv subs ref))) ∧
      rows.Pairwise (fun a b =>
        (a.to_delete = true ∧ b.to_delete = false) ∨
          (a.to_delete = b.to_delete ∧ b.file_path ≤ a.file_path))) ∧
    (∀ dels m, annotateRow dels m =
      { file_path := m.file_path, file_name := m.file_name,
        to_delete := decide (m.file_path ∈ dels),
        is_in_data_table := m.is_in_data_table, size := m.size,
        size_human_readable := human_readable_size m.size, md5 := m.md5,
        time_updated := m.time_updated }) ∧
    (∀ b : Bool,
      deletable_files { args with make_manifest := b } inv subs ref =
        deletable_files args inv subs ref ∧
      (mop_run { args with make_manifest := b } inv subs ref confirm).deleted =
        (mop_run args inv subs ref confirm).deleted ∧
      (mop_run { args with make_manifest := b } inv subs ref confirm).exit_code =
        (mop_run args inv subs ref confirm).exit_code) := by
  refine ⟨?_, fun dels m => rfl, ?_⟩
  · intro rows hrows
    have hr : rows = manifest_rows inv (deletable_files args inv subs ref) := by
      by_cases hlen : (deletable_files args inv subs ref).length = 0
      · simp [mop_run, hlen] at hrows
      · cases hmm : args.make_manifest with
        | false => simp [mop_run, hlen, hmm, apply_ite] at hrows
        | true =>
          simp [mop_run, hlen, hmm, apply_ite] at hrows
          exact hrows.symm
    subst hr
    constructor
    · unfold manifest_rows
      exact List.mergeSort_perm _ _
    · unfold manifest_rows
      refine List.Pairwise.imp ?_
        (List.sorted_mergeSort (fun a b c => manifestLe_trans a b c)
          manifestLe_total (inv.map (annotateRow (deletable_files args inv subs ref))))
      intro a b h
      exact (manifestLe_iff a b).mp h
  · intro b
    have hdf : deletable_files { args with make_manifest := b } inv subs ref =
        deletable_files args inv subs ref := rfl
    refine ⟨hdf, ?_, ?_⟩
    · simp only [mop_run, hdf]
      split
      · rfl
      · split <;> rfl
    · simp only [mop_run, hdf]
      split
      · rfl
      · split <;> rfl

/-- Witness for C9: the manifest written on a concrete run is a sorted
permutation of the annotated inventory. -/
theorem manifest_spec_witness :
    (manifest_rows invSample
        (deletable_files { argsSample with make_manifest := true } invSample
          ["sub1"] ["gs://bkt/sub1/x.bam"])).Perm
      (invSample.map (annotateRow
        (deletable_files { argsSample with make_manifest := true } invSample
          ["sub1"] ["gs://bkt/sub1/x.bam"]))) ∧
    (manifest_rows invSample
        (deletable_files { argsSample with make_manifest := true } invSample
          ["sub1"] ["gs://bkt/sub1/x.bam"])).Pairwise (fun a b =>
        (a.to_delete = true ∧ b.to_delete = false) ∨
          (a.to_delete = b.to_delete ∧ b.file_path ≤ a.file_path)) :=
  (manifest_spec { argsSample with make_manifest := true } invSample
      ["sub1"] ["gs://bkt/sub1/x.bam"] true).1
    (manifest_rows invSample
      (deletable_files { argsSample with make_manifest := true } invSample
        ["sub1"] ["gs://bkt/sub1/x.bam"])) rfl

end Fiss
